import Mathlib

/-!
Verification of the File Indexing & Download Streaming Engine of the
gamevault backend.

The repository fragment under review ships the HTTP controller
(GamesController) together with metadata entities; the engine itself
(range resolution, reconciliation, download orchestration) lives in
FilesService / GamesService, whose sources are not part of the fragment.
Those components are therefore modelled from the specification
(sections 3, 4.3, 4.4, 4.6 of spec.md), while the controller-level
facts are embedded directly from the GamesController source.

Naming note: the byte interval of the spec has fields start and end.
The identifier end is a Lean keyword, so the upper bound is called last.
-/

namespace GameVault

/-- Modelled from the spec: ByteInterval of section 3, an inclusive byte
range. The spec field end is renamed last because end is a Lean keyword. -/
structure ByteInterval where
  start : Nat
  last : Nat
deriving DecidableEq, Repr

/-- Modelled from the spec: the failure raised by the Range Resolver for
an out-of-bounds explicit range (section 4.4 / section 7). -/
inductive RangeFailure where
  | rangeNotSatisfiable
deriving DecidableEq, Repr

/-- Modelled from the spec: the three recognized single-range forms of the
grammar in section 4.4. -/
inductive RangeSpec where
  | explicit (a b : Nat)
  | openEnded (a : Nat)
  | suffix (n : Nat)
deriving DecidableEq, Repr

/-- Reads a decimal digit character. -/
def charDigit (c : Char) : Option Nat :=
  if c.isDigit then some (c.toNat - 48) else none

/-- Accumulates decimal digits into a number, failing on a non-digit. -/
def natOfDigitsAux : List Char → Nat → Option Nat
  | [], acc => some acc
  | c :: cs, acc =>
    match charDigit c with
    | some d => natOfDigitsAux cs (acc * 10 + d)
    | none => none

/-- Reads a nonempty all-digit character list as a decimal number. -/
def natOfDigits (cs : List Char) : Option Nat :=
  match cs with
  | [] => none
  | _ => natOfDigitsAux cs 0

/-- Splits a character list at every dash, keeping empty pieces. -/
def splitOnDash : List Char → List (List Char)
  | [] => [[]]
  | c :: cs =>
    if c = '-' then [] :: splitOnDash cs
    else
      match splitOnDash cs with
      | [] => [[c]]
      | p :: ps => (c :: p) :: ps

/-- Recognizes the part of a range header after the bytes= marker. -/
def parseRangeBody (body : List Char) : Option RangeSpec :=
  match splitOnDash body with
  | [l, r] =>
    match natOfDigits l, natOfDigits r with
    | some a, some b => some (RangeSpec.explicit a b)
    | some a, none => if r = [] then some (RangeSpec.openEnded a) else none
    | none, some n => if l = [] then some (RangeSpec.suffix n) else none
    | none, none => none
  | _ => none

/-- Modelled from the spec: recognition of the single-range grammar of
section 4.4. A header matches exactly one of bytes=a-b, bytes=a- and
bytes=-n; anything else (including multi-range headers, whose comma is
rejected by the digit reader) is not recognized. -/
def parseRange (s : String) : Option RangeSpec :=
  match s.toList with
  | 'b' :: 'y' :: 't' :: 'e' :: 's' :: '=' :: body => parseRangeBody body
  | _ => none

/-- Modelled from the spec: resolution of a recognized range against the
file size, following the three bullet points of section 4.4. -/
def resolveParsed : RangeSpec → Nat → Except RangeFailure ByteInterval
  | RangeSpec.explicit a b, fileSize =>
    if a ≤ b ∧ b ≤ fileSize - 1 then Except.ok ⟨a, b⟩
    else Except.error RangeFailure.rangeNotSatisfiable
  | RangeSpec.openEnded a, fileSize =>
    if a < fileSize then Except.ok ⟨a, fileSize - 1⟩
    else Except.error RangeFailure.rangeNotSatisfiable
  | RangeSpec.suffix n, fileSize => Except.ok ⟨fileSize - n, fileSize - 1⟩

/-- Modelled from the spec: the Range Resolver of section 4.4. An absent
or unrecognized header degrades to the full interval. -/
def resolve (header : Option String) (fileSize : Nat) :
    Except RangeFailure ByteInterval :=
  match header with
  | none => Except.ok ⟨0, fileSize - 1⟩
  | some s =>
    match parseRange s with
    | none => Except.ok ⟨0, fileSize - 1⟩
    | some sp => resolveParsed sp fileSize

theorem resolve_some_eq_match (s : String) (fileSize : Nat) :
    resolve (some s) fileSize =
      match parseRange s with
      | none => Except.ok ⟨0, fileSize - 1⟩
      | some sp => resolveParsed sp fileSize := rfl

theorem resolve_some_of_parse (s : String) (fileSize : Nat) (sp : RangeSpec)
    (h : parseRange s = some sp) :
    resolve (some s) fileSize = resolveParsed sp fileSize := by
  rw [resolve_some_eq_match, h]

theorem resolve_some_of_noparse (s : String) (fileSize : Nat)
    (h : parseRange s = none) :
    resolve (some s) fileSize = Except.ok ⟨0, fileSize - 1⟩ := by
  rw [resolve_some_eq_match, h]

/-- C1: for a positive file size and a header recognized as bytes=a-b,
resolve returns the interval with bounds a and b when a ≤ b ≤ file_size-1,
and fails with RangeNotSatisfiable when a > b or b ≥ file_size. -/
theorem resolve_explicit_range (fileSize a b : Nat) (s : String)
    (hpos : 0 < fileSize)
    (hparse : parseRange s = some (RangeSpec.explicit a b)) :
    (a ≤ b → b ≤ fileSize - 1 →
      resolve (some s) fileSize = Except.ok ⟨a, b⟩) ∧
    (a > b ∨ b ≥ fileSize →
      resolve (some s) fileSize =
        Except.error RangeFailure.rangeNotSatisfiable) := by
  rw [resolve_some_of_parse s fileSize _ hparse]
  constructor
  · intro hab hbf
    simp [resolveParsed, hab, hbf]
  · intro hbad
    have hnot : ¬(a ≤ b ∧ b ≤ fileSize - 1) := by
      rcases hbad with h | h
      · intro hc; omega
      · intro hc; omega
    simp [resolveParsed, hnot]

/-- Witness for C1 at file size 10 and header bytes=2-5. -/
theorem resolve_explicit_range_witness :
    resolve (some "bytes=2-5") 10 = Except.ok ⟨2, 5⟩ :=
  (resolve_explicit_range 10 2 5 "bytes=2-5" (by decide) (by decide)).1
    (by decide) (by decide)

/-- C2: for a positive file size, resolve on an absent header, or on any
header string the single-range grammar does not recognize, returns the
full interval from 0 to file_size-1 and does not fail. -/
theorem resolve_malformed_full_interval (fileSize : Nat) (s : String)
    (hpos : 0 < fileSize) (hparse : parseRange s = none) :
    resolve none fileSize = Except.ok ⟨0, fileSize - 1⟩ ∧
    resolve (some s) fileSize = Except.ok ⟨0, fileSize - 1⟩ :=
  ⟨rfl, resolve_some_of_noparse s fileSize hparse⟩

/-- Witness for C2 at file size 4 and the unrecognized header garbage. -/
theorem resolve_malformed_full_interval_witness :
    resolve none 4 = Except.ok ⟨0, 3⟩ ∧
    resolve (some "garbage") 4 = Except.ok ⟨0, 3⟩ :=
  resolve_malformed_full_interval 4 "garbage" (by decide) (by decide)

/-- C8 counterexample: at file size 1, the header bytes=-0 resolves via
the spec formula start = max(0, file_size - suffix_length) to the
interval with start 1 and last 0, whose start exceeds its last bound, so
the ByteInterval invariant start ≤ end is violated at suffix_length 0. -/
theorem resolve_suffix_zero_violates_invariant :
    resolve (some "bytes=-0") 1 = Except.ok ⟨1, 0⟩ ∧ ¬(1 ≤ 0) := by
  exact ⟨rfl, by decide⟩

/-- C8 amended: for every positive file size and every suffix_length ≥ 1,
resolve on a header recognized as bytes=-n returns the interval with
start = max(0, file_size - n) (truncated subtraction) and
last = file_size - 1, and that interval satisfies the ByteInterval
invariant start ≤ end < file_size; at suffix_length 0 the formula instead
yields start = file_size, violating start ≤ end. -/
theorem resolve_suffix_range (fileSize n : Nat) (s : String)
    (hpos : 0 < fileSize) (hn : 1 ≤ n)
    (hparse : parseRange s = some (RangeSpec.suffix n)) :
    resolve (some s) fileSize = Except.ok ⟨fileSize - n, fileSize - 1⟩ ∧
    fileSize - n ≤ fileSize - 1 ∧ fileSize - 1 < fileSize := by
  refine ⟨?_, by omega, by omega⟩
  rw [resolve_some_of_parse s fileSize _ hparse]
  rfl

/-- Witness for the amended C8 at file size 10 and header bytes=-4. -/
theorem resolve_suffix_range_witness :
    resolve (some "bytes=-4") 10 = Except.ok ⟨6, 9⟩ ∧ 6 ≤ 9 ∧ 9 < 10 :=
  resolve_suffix_range 10 4 "bytes=-4" (by decide) (by decide) (by decide)

/-- Modelled from the spec: FileDescriptor of section 3, the ephemeral
scanner output. -/
structure FileDescriptor where
  path : String
  size : Nat
  checksum : String
  modified_at : Nat
deriving DecidableEq, Repr

/-- Modelled from the spec: GameRecord of section 3, the persisted
registry record. Timestamps are abstract Nat instants. -/
structure GameRecord where
  id : Nat
  path : String
  checksum : String
  size : Nat
  created_at : Nat
  updated_at : Nat
  deleted_at : Option Nat
deriving DecidableEq, Repr

/-- Modelled from the spec: lookup by id in the Game Registry Store
(find_by_id of section 6), the registry being a list of records keyed
by id. -/
def recordAt : List GameRecord → Nat → Option GameRecord
  | [], _ => none
  | x :: xs, i => if x.id = i then some x else recordAt xs i

/-- Modelled from the spec: the upsert operation of the Game Registry
Store (section 6): replace the record with the same id in place, or
append the record when the id is new. -/
def upsert (r : GameRecord) : List GameRecord → List GameRecord
  | [] => [r]
  | x :: xs => if x.id = r.id then r :: xs else x :: upsert r xs

/-- Modelled from the spec: application of a mutation plan to the
registry as a sequence of upserts (section 4.3). -/
def applyPlan : List GameRecord → List GameRecord → List GameRecord
  | [], s => s
  | m :: p, s => applyPlan p (upsert m s)

/-- Sequence of record ids of a registry state. -/
def regIds (s : List GameRecord) : List Nat := s.map (fun r => r.id)

/-- Last plan entry carrying a given id, the one a sequence of upserts
leaves in force. -/
def lastUp : List GameRecord → Nat → Option GameRecord
  | [], _ => none
  | m :: p, i =>
    match lastUp p i with
    | some r => some r
    | none => if m.id = i then some m else none

theorem recordAt_upsert (r : GameRecord) (s : List GameRecord) (i : Nat) :
    recordAt (upsert r s) i = if r.id = i then some r else recordAt s i := by
  induction s with
  | nil => rfl
  | cons x xs ih =>
    show recordAt (if x.id = r.id then r :: xs else x :: upsert r xs) i = _
    by_cases hxr : x.id = r.id
    · rw [if_pos hxr]
      show (if r.id = i then some r else recordAt xs i) = _
      by_cases hri : r.id = i
      · simp [hri]
      · have hxi : ¬x.id = i := by rw [hxr]; exact hri
        simp [hri, recordAt, hxi]
    · rw [if_neg hxr]
      show (if x.id = i then some x else recordAt (upsert r xs) i) = _
      rw [ih]
      by_cases hxi : x.id = i
      · have hri : ¬r.id = i := fun h => hxr (hxi.trans h.symm)
        simp [hxi, hri, recordAt]
      · simp [hxi, recordAt]

theorem recordAt_applyPlan (p s : List GameRecord) (i : Nat) :
    recordAt (applyPlan p s) i =
      match lastUp p i with
      | some r => some r
      | none => recordAt s i := by
  induction p generalizing s with
  | nil => rfl
  | cons m p ih =>
    show recordAt (applyPlan p (upsert m s)) i = _
    rw [ih]
    cases h : lastUp p i with
    | some r => simp [lastUp, h]
    | none =>
      rw [recordAt_upsert]
      by_cases hmi : m.id = i <;> simp [lastUp, h, hmi]

theorem regIds_cons (x : GameRecord) (xs : List GameRecord) :
    regIds (x :: xs) = x.id :: regIds xs := rfl

theorem mem_regIds_upsert (r : GameRecord) (s : List GameRecord) (j : Nat) :
    j ∈ regIds (upsert r s) ↔ j = r.id ∨ j ∈ regIds s := by
  induction s with
  | nil =>
    show j ∈ regIds [r] ↔ _
    rw [regIds_cons]
    simp [regIds]
  | cons x xs ih =>
    show j ∈ regIds (if x.id = r.id then r :: xs else x :: upsert r xs) ↔ _
    by_cases hxr : x.id = r.id
    · rw [if_pos hxr, regIds_cons, regIds_cons, List.mem_cons, List.mem_cons]
      constructor
      · intro h
        rcases h with h | h
        · exact Or.inl h
        · exact Or.inr (Or.inr h)
      · intro h
        rcases h with h | h | h
        · exact Or.inl h
        · exact Or.inl (h.trans hxr)
        · exact Or.inr h
    · rw [if_neg hxr, regIds_cons, regIds_cons, List.mem_cons, List.mem_cons, ih]
      tauto

theorem regIds_upsert_of_mem (r : GameRecord) (s : List GameRecord)
    (h : r.id ∈ regIds s) : regIds (upsert r s) = regIds s := by
  induction s with
  | nil => simp [regIds] at h
  | cons x xs ih =>
    show regIds (if x.id = r.id then r :: xs else x :: upsert r xs) = _
    by_cases hxr : x.id = r.id
    · rw [if_pos hxr, regIds_cons, regIds_cons, hxr]
    · rw [if_neg hxr, regIds_cons, regIds_cons]
      have hmem : r.id ∈ regIds xs := by
        rw [regIds_cons, List.mem_cons] at h
        rcases h with h | h
        · exact absurd h.symm hxr
        · exact h
      rw [ih hmem]

theorem nodup_regIds_upsert (r : GameRecord) (s : List GameRecord)
    (h : (regIds s).Nodup) : (regIds (upsert r s)).Nodup := by
  induction s with
  | nil => simp [upsert, regIds]
  | cons x xs ih =>
    show (regIds (if x.id = r.id then r :: xs else x :: upsert r xs)).Nodup
    simp only [regIds, List.map_cons, List.nodup_cons] at h
    by_cases hxr : x.id = r.id
    · rw [if_pos hxr]
      simp only [regIds, List.map_cons, List.nodup_cons]
      exact ⟨by rw [← hxr]; exact h.1, h.2⟩
    · rw [if_neg hxr]
      simp only [regIds, List.map_cons, List.nodup_cons]
      refine ⟨?_, ih h.2⟩
      intro hmem
      rcases (mem_regIds_upsert r xs x.id).1 hmem with h1 | h1
      · exact hxr h1
      · exact h.1 h1

theorem mem_regIds_applyPlan (p s : List GameRecord) (j : Nat)
    (h : j ∈ regIds s) : j ∈ regIds (applyPlan p s) := by
  induction p generalizing s with
  | nil => exact h
  | cons m p ih =>
    exact ih (upsert m s) ((mem_regIds_upsert m s j).2 (Or.inr h))

theorem planIds_mem_applyPlan (p s : List GameRecord) :
    ∀ m ∈ p, m.id ∈ regIds (applyPlan p s) := by
  induction p generalizing s with
  | nil => intro m hm; cases hm
  | cons m p ih =>
    intro m₁ hm
    rcases List.mem_cons.1 hm with h | h
    · subst h
      exact mem_regIds_applyPlan p (upsert m₁ s) m₁.id
        ((mem_regIds_upsert m₁ s m₁.id).2 (Or.inl rfl))
    · exact ih (upsert m s) m₁ h

theorem regIds_applyPlan_of_closed (p s : List GameRecord)
    (h : ∀ m ∈ p, m.id ∈ regIds s) : regIds (applyPlan p s) = regIds s := by
  induction p generalizing s with
  | nil => rfl
  | cons m p ih =>
    have hm : m.id ∈ regIds s := h m (List.mem_cons_self m p)
    have hrest : ∀ m₁ ∈ p, m₁.id ∈ regIds (upsert m s) := fun m₁ hm₁ =>
      (mem_regIds_upsert m s m₁.id).2 (Or.inr (h m₁ (List.mem_cons_of_mem m hm₁)))
    calc regIds (applyPlan p (upsert m s)) = regIds (upsert m s) := ih _ hrest
      _ = regIds s := regIds_upsert_of_mem m s hm

theorem nodup_regIds_applyPlan (p s : List GameRecord)
    (h : (regIds s).Nodup) : (regIds (applyPlan p s)).Nodup := by
  induction p generalizing s with
  | nil => exact h
  | cons m p ih => exact ih (upsert m s) (nodup_regIds_upsert m s h)

theorem recordAt_eq_none_of_not_mem (s : List GameRecord) (i : Nat)
    (h : i ∉ regIds s) : recordAt s i = none := by
  induction s with
  | nil => rfl
  | cons x xs ih =>
    simp only [regIds, List.map_cons, List.mem_cons] at h
    push_neg at h
    show (if x.id = i then some x else recordAt xs i) = none
    rw [if_neg (fun hx => h.1 hx.symm)]
    exact ih (by simpa [regIds] using h.2)

theorem recordAt_ext (s t : List GameRecord) (hids : regIds s = regIds t)
    (hnd : (regIds s).Nodup) (hpt : ∀ i, recordAt s i = recordAt t i) :
    s = t := by
  induction s generalizing t with
  | nil =>
    cases t with
    | nil => rfl
    | cons y ys => simp [regIds] at hids
  | cons x xs ih =>
    cases t with
    | nil => simp [regIds] at hids
    | cons y ys =>
      simp only [regIds, List.map_cons, List.cons.injEq] at hids
      have hxy : x = y := by
        have h1 := hpt x.id
        have hx : recordAt (x :: xs) x.id = some x := by
          show (if x.id = x.id then some x else recordAt xs x.id) = some x
          rw [if_pos rfl]
        have hy : recordAt (y :: ys) x.id = some y := by
          show (if y.id = x.id then some y else recordAt ys x.id) = some y
          rw [if_pos hids.1.symm]
        rw [hx, hy] at h1
        exact Option.some.inj h1
      simp only [regIds, List.map_cons, List.nodup_cons] at hnd
      have hxs : xs = ys := by
        apply ih ys (by simpa [regIds] using hids.2) hnd.2
        intro i
        by_cases hxi : x.id = i
        · subst hxi
          rw [recordAt_eq_none_of_not_mem xs x.id hnd.1,
            recordAt_eq_none_of_not_mem ys x.id]
          rw [show regIds ys = regIds xs from (hids.2).symm]
          exact hnd.1
        · have h1 := hpt i
          have hyi : ¬y.id = i := by rw [← hids.1]; exact hxi
          have hx : recordAt (x :: xs) i = recordAt xs i := by
            show (if x.id = i then some x else recordAt xs i) = _
            rw [if_neg hxi]
          have hy : recordAt (y :: ys) i = recordAt ys i := by
            show (if y.id = i then some y else recordAt ys i) = _
            rw [if_neg hyi]
          rw [hx, hy] at h1
          exact h1
      rw [hxy, hxs]

theorem applyPlan_idem (p s : List GameRecord) (hnd : (regIds s).Nodup) :
    applyPlan p (applyPlan p s) = applyPlan p s := by
  apply recordAt_ext
  · exact regIds_applyPlan_of_closed p (applyPlan p s) (planIds_mem_applyPlan p s)
  · exact nodup_regIds_applyPlan p (applyPlan p s) (nodup_regIds_applyPlan p s hnd)
  · intro i
    cases h : lastUp p i with
    | some r => simp [recordAt_applyPlan, h]
    | none => simp [recordAt_applyPlan, h]

/-- Modelled from the spec: an id strictly larger than every id of the
snapshot, the base from which records created by a reconciliation pass
take their fresh identities. -/
def freshIdBase (snap : List GameRecord) : Nat :=
  (regIds snap).foldr max 0 + 1

/-- Modelled from the spec: the live registry record carrying a given
checksum, if any (section 4.3 steps 4 and 5). -/
def findLive (snap : List GameRecord) (c : String) : Option GameRecord :=
  snap.find? (fun r => r.deleted_at.isNone && r.checksum == c)

/-- Modelled from the spec: a soft-deleted registry record carrying a
given checksum, if any (section 4.3 step 3, revival). -/
def findDeleted (snap : List GameRecord) (c : String) : Option GameRecord :=
  snap.find? (fun r => r.deleted_at.isSome && r.checksum == c)

/-- Modelled from the spec: the mutation a single deduplicated scan
descriptor contributes to the plan (section 4.3 steps 3 to 5): a path
update when a live record with the checksum exists under another path,
nothing when checksum and path are unchanged, a revival when only a
soft-deleted record has the checksum, and a creation otherwise. -/
def scanMutation (snap : List GameRecord) (now fresh : Nat)
    (d : FileDescriptor) : Option GameRecord :=
  match findLive snap d.checksum with
  | some r =>
    if r.path = d.path then none
    else some { r with path := d.path, updated_at := now }
  | none =>
    match findDeleted snap d.checksum with
    | some r =>
      some { r with path := d.path, deleted_at := none, updated_at := now }
    | none =>
      some { id := fresh, path := d.path, checksum := d.checksum,
             size := d.size, created_at := now, updated_at := now,
             deleted_at := none }

/-- Modelled from the spec: the scan-driven part of the plan, walking the
deduplicated descriptors while handing out fresh creation ids. -/
def scanMutations (snap : List GameRecord) (now : Nat) :
    Nat → List FileDescriptor → List GameRecord
  | _, [] => []
  | fresh, d :: ks =>
    match scanMutation snap now fresh d with
    | some e => e :: scanMutations snap now (fresh + 1) ks
    | none => scanMutations snap now (fresh + 1) ks

/-- Modelled from the spec: checksum deduplication of the scan
(section 4.3 step 1): the first descriptor seen per checksum wins a place
in the plan, every later descriptor with the same checksum loses and its
path is reported as a DuplicateContentError. -/
def dedupeScan : List FileDescriptor → List String →
    List FileDescriptor × List String
  | [], _ => ([], [])
  | d :: ds, seen =>
    if d.checksum ∈ seen then
      let r := dedupeScan ds seen
      (r.1, d.path :: r.2)
    else
      let r := dedupeScan ds (d.checksum :: seen)
      (d :: r.1, r.2)

/-- Modelled from the spec: step 2 of section 4.3, soft-deleting every
live record whose checksum disappeared from the scan. -/
def softDeletes (snap : List GameRecord) (now : Nat)
    (ds : List FileDescriptor) : List GameRecord :=
  snap.filterMap (fun r =>
    if r.deleted_at.isNone && !(ds.any (fun d => d.checksum == r.checksum))
    then some { r with deleted_at := some now, updated_at := now }
    else none)

/-- Modelled from the spec: the outcome of a reconciliation pass, a
mutation plan of full-record upserts plus the losing paths reported as
DuplicateContentError conflicts. -/
structure ReconcileResult where
  plan : List GameRecord
  duplicates : List String
deriving DecidableEq, Repr

/-- Modelled from the spec: the Reconciliation Engine of section 4.3,
diffing the scan against the registry snapshot. -/
def reconcile (ds : List FileDescriptor) (snap : List GameRecord)
    (now : Nat) : ReconcileResult :=
  let kept := dedupeScan ds []
  { plan := softDeletes snap now ds ++
      scanMutations snap now (freshIdBase snap) kept.1,
    duplicates := kept.2 }

/-- C3: for every registry whose records are keyed by pairwise distinct
ids and every mutation plan produced by reconcile, applying the plan
twice leaves the registry in the same state as applying it once, every
mutation being an idempotent full-record upsert. -/
theorem reconcile_plan_idempotent (ds : List FileDescriptor)
    (snap reg : List GameRecord) (now : Nat)
    (hnd : (regIds reg).Nodup) :
    applyPlan (reconcile ds snap now).plan
        (applyPlan (reconcile ds snap now).plan reg) =
      applyPlan (reconcile ds snap now).plan reg :=
  applyPlan_idem (reconcile ds snap now).plan reg hnd

/-- Witness for C3 on a one-descriptor scan against a one-record registry. -/
theorem reconcile_plan_idempotent_witness :
    applyPlan (reconcile [⟨"new.bin", 3, "c1", 0⟩]
        [⟨1, "old.bin", "c0", 7, 0, 0, none⟩] 5).plan
      (applyPlan (reconcile [⟨"new.bin", 3, "c1", 0⟩]
          [⟨1, "old.bin", "c0", 7, 0, 0, none⟩] 5).plan
        [⟨1, "old.bin", "c0", 7, 0, 0, none⟩]) =
    applyPlan (reconcile [⟨"new.bin", 3, "c1", 0⟩]
        [⟨1, "old.bin", "c0", 7, 0, 0, none⟩] 5).plan
      [⟨1, "old.bin", "c0", 7, 0, 0, none⟩] :=
  reconcile_plan_idempotent [⟨"new.bin", 3, "c1", 0⟩]
    [⟨1, "old.bin", "c0", 7, 0, 0, none⟩]
    [⟨1, "old.bin", "c0", 7, 0, 0, none⟩] 5 (by decide)

theorem findLive_some (snap : List GameRecord) (c : String) (r : GameRecord)
    (h : findLive snap c = some r) :
    r ∈ snap ∧ r.deleted_at = none ∧ r.checksum = c := by
  have hp := List.find?_some h
  have hm := List.mem_of_find?_eq_some h
  simp only [Bool.and_eq_true, Option.isNone_iff_eq_none, beq_iff_eq] at hp
  exact ⟨hm, hp.1, hp.2⟩

theorem findDeleted_some (snap : List GameRecord) (c : String)
    (r : GameRecord) (h : findDeleted snap c = some r) :
    r ∈ snap ∧ r.deleted_at.isSome ∧ r.checksum = c := by
  have hp := List.find?_some h
  have hm := List.mem_of_find?_eq_some h
  simp only [Bool.and_eq_true, beq_iff_eq] at hp
  exact ⟨hm, hp.1, hp.2⟩

theorem findLive_isSome (snap : List GameRecord) (c : String)
    (r : GameRecord) (hr : r ∈ snap) (hlive : r.deleted_at = none)
    (hc : r.checksum = c) : ∃ r₂, findLive snap c = some r₂ := by
  have : (snap.find? (fun x => x.deleted_at.isNone && x.checksum == c)).isSome :=
    List.find?_isSome.mpr ⟨r, hr, by simp [hlive, hc]⟩
  exact Option.isSome_iff_exists.1 this

theorem scanMutation_fields (snap : List GameRecord) (now fresh : Nat)
    (d : FileDescriptor) (e : GameRecord)
    (h : scanMutation snap now fresh d = some e) :
    e.checksum = d.checksum ∧ e.path = d.path ∧ e.deleted_at = none := by
  unfold scanMutation at h
  split at h
  · rename_i r hl
    split at h
    · cases h
    · have he := Option.some.inj h
      have hf := findLive_some snap d.checksum r hl
      rw [← he]
      exact ⟨hf.2.2, rfl, hf.2.1⟩
  · rename_i hl
    split at h
    · rename_i r hd2
      have he := Option.some.inj h
      have hf := findDeleted_some snap d.checksum r hd2
      rw [← he]
      exact ⟨hf.2.2, rfl, rfl⟩
    · have he := Option.some.inj h
      rw [← he]
      exact ⟨rfl, rfl, rfl⟩

theorem mem_scanMutations (snap : List GameRecord) (now : Nat)
    (fresh : Nat) (ks : List FileDescriptor) (e : GameRecord)
    (he : e ∈ scanMutations snap now fresh ks) :
    ∃ d ∈ ks, ∃ f, fresh ≤ f ∧ scanMutation snap now f d = some e := by
  induction ks generalizing fresh with
  | nil => cases he
  | cons d ks ih =>
    revert he
    show e ∈ (match scanMutation snap now fresh d with
      | some e₁ => e₁ :: scanMutations snap now (fresh + 1) ks
      | none => scanMutations snap now (fresh + 1) ks) → _
    cases hm : scanMutation snap now fresh d with
    | some e₁ =>
      intro he
      rcases List.mem_cons.1 he with h | h
      · exact ⟨d, List.mem_cons_self d ks, fresh, Nat.le_refl fresh,
          by rw [hm, h]⟩
      · rcases ih (fresh + 1) h with ⟨d₁, hd₁, f, hf, hsm⟩
        exact ⟨d₁, List.mem_cons_of_mem d hd₁, f, by omega, hsm⟩
    | none =>
      intro he
      rcases ih (fresh + 1) he with ⟨d₁, hd₁, f, hf, hsm⟩
      exact ⟨d₁, List.mem_cons_of_mem d hd₁, f, by omega, hsm⟩

theorem scanMutations_checksum_mem (snap : List GameRecord) (now : Nat)
    (fresh : Nat) (ks : List FileDescriptor) (e : GameRecord)
    (he : e ∈ scanMutations snap now fresh ks) :
    e.checksum ∈ ks.map (fun d => d.checksum) := by
  rcases mem_scanMutations snap now fresh ks e he with ⟨d, hd, f, _, hsm⟩
  have := (scanMutation_fields snap now f d e hsm).1
  exact List.mem_map.2 ⟨d, hd, this.symm⟩

theorem scanMutations_unique (snap : List GameRecord) (now : Nat)
    (fresh : Nat) (ks : List FileDescriptor)
    (hnd : (ks.map (fun d => d.checksum)).Nodup) (e₁ e₂ : GameRecord)
    (h₁ : e₁ ∈ scanMutations snap now fresh ks)
    (h₂ : e₂ ∈ scanMutations snap now fresh ks)
    (hc : e₁.checksum = e₂.checksum) : e₁ = e₂ := by
  induction ks generalizing fresh with
  | nil => cases h₁
  | cons d ks ih =>
    simp only [List.map_cons, List.nodup_cons] at hnd
    revert h₁ h₂
    show e₁ ∈ (match scanMutation snap now fresh d with
      | some e => e :: scanMutations snap now (fresh + 1) ks
      | none => scanMutations snap now (fresh + 1) ks) →
      e₂ ∈ (match scanMutation snap now fresh d with
      | some e => e :: scanMutations snap now (fresh + 1) ks
      | none => scanMutations snap now (fresh + 1) ks) → _
    cases hm : scanMutation snap now fresh d with
    | some e =>
      intro h₁ h₂
      have hechk := (scanMutation_fields snap now fresh d e hm).1
      rcases List.mem_cons.1 h₁ with g₁ | g₁ <;>
        rcases List.mem_cons.1 h₂ with g₂ | g₂
      · rw [g₁, g₂]
      · exfalso
        have := scanMutations_checksum_mem snap now (fresh + 1) ks e₂ g₂
        rw [← hc, g₁, hechk] at this
        exact hnd.1 this
      · exfalso
        have := scanMutations_checksum_mem snap now (fresh + 1) ks e₁ g₁
        rw [hc, g₂, hechk] at this
        exact hnd.1 this
      · exact ih (fresh + 1) hnd.2 g₁ g₂
    | none =>
      intro h₁ h₂
      exact ih (fresh + 1) hnd.2 h₁ h₂

theorem exists_mem_scanMutations (snap : List GameRecord) (now : Nat)
    (fresh : Nat) (ks : List FileDescriptor) (d : FileDescriptor)
    (P : GameRecord → Prop) (hd : d ∈ ks)
    (h : ∀ f, ∃ e, scanMutation snap now f d = some e ∧ P e) :
    ∃ e ∈ scanMutations snap now fresh ks, P e := by
  induction ks generalizing fresh with
  | nil => cases hd
  | cons d₁ ks ih =>
    rcases List.mem_cons.1 hd with hh | hh
    · subst hh
      rcases h fresh with ⟨e, he, hpe⟩
      refine ⟨e, ?_, hpe⟩
      show e ∈ (match scanMutation snap now fresh d with
        | some e₁ => e₁ :: scanMutations snap now (fresh + 1) ks
        | none => scanMutations snap now (fresh + 1) ks)
      rw [he]
      exact List.mem_cons_self e _
    · rcases ih (fresh + 1) hh with ⟨e, he, hpe⟩
      refine ⟨e, ?_, hpe⟩
      show e ∈ (match scanMutation snap now fresh d₁ with
        | some e₁ => e₁ :: scanMutations snap now (fresh + 1) ks
        | none => scanMutations snap now (fresh + 1) ks)
      cases hm : scanMutation snap now fresh d₁ with
      | some e₁ => exact List.mem_cons_of_mem e₁ he
      | none => exact he

theorem dedupeScan_cons_mem (d : FileDescriptor) (ds : List FileDescriptor)
    (seen : List String) (hc : d.checksum ∈ seen) :
    dedupeScan (d :: ds) seen =
      ((dedupeScan ds seen).1, d.path :: (dedupeScan ds seen).2) := by
  simp [dedupeScan, hc]

theorem dedupeScan_cons_new (d : FileDescriptor) (ds : List FileDescriptor)
    (seen : List String) (hc : d.checksum ∉ seen) :
    dedupeScan (d :: ds) seen =
      (d :: (dedupeScan ds (d.checksum :: seen)).1,
        (dedupeScan ds (d.checksum :: seen)).2) := by
  simp [dedupeScan, hc]

theorem dedupe_kept_mem (ds : List FileDescriptor) (seen : List String)
    (d : FileDescriptor) (h : d ∈ (dedupeScan ds seen).1) : d ∈ ds := by
  induction ds generalizing seen with
  | nil => cases h
  | cons d₁ ds ih =>
    by_cases hc : d₁.checksum ∈ seen
    · rw [dedupeScan_cons_mem d₁ ds seen hc] at h
      exact List.mem_cons_of_mem d₁ (ih seen h)
    · rw [dedupeScan_cons_new d₁ ds seen hc] at h
      rcases List.mem_cons.1 h with h | h
      · rw [h]; exact List.mem_cons_self d₁ ds
      · exact List.mem_cons_of_mem d₁ (ih _ h)

theorem dedupe_nodup_disjoint (ds : List FileDescriptor)
    (seen : List String) :
    ((dedupeScan ds seen).1.map (fun d => d.checksum)).Nodup ∧
    ∀ c ∈ (dedupeScan ds seen).1.map (fun d => d.checksum), c ∉ seen := by
  induction ds generalizing seen with
  | nil => exact ⟨List.nodup_nil, by intro c hc; cases hc⟩
  | cons d ds ih =>
    by_cases hc : d.checksum ∈ seen
    · rw [dedupeScan_cons_mem d ds seen hc]
      exact ih seen
    · rw [dedupeScan_cons_new d ds seen hc]
      rcases ih (d.checksum :: seen) with ⟨hnd, hdis⟩
      constructor
      · rw [List.map_cons, List.nodup_cons]
        exact ⟨fun hmem => (hdis d.checksum hmem) (List.mem_cons_self _ _), hnd⟩
      · intro c hcm
        rw [List.map_cons, List.mem_cons] at hcm
        rcases hcm with h | h
        · rw [h]; exact hc
        · intro hs
          exact hdis c h (List.mem_cons_of_mem _ hs)

theorem dedupe_mem_checksum (ds : List FileDescriptor) (seen : List String)
    (c : String) (hmem : c ∈ ds.map (fun d => d.checksum)) (hs : c ∉ seen) :
    c ∈ (dedupeScan ds seen).1.map (fun d => d.checksum) := by
  induction ds generalizing seen with
  | nil => cases hmem
  | cons d ds ih =>
    rw [List.map_cons, List.mem_cons] at hmem
    by_cases hc : d.checksum ∈ seen
    · rw [dedupeScan_cons_mem d ds seen hc]
      rcases hmem with h | h
      · exact absurd (h ▸ hc) hs
      · exact ih seen h hs
    · rw [dedupeScan_cons_new d ds seen hc, List.map_cons, List.mem_cons]
      rcases hmem with h | h
      · exact Or.inl h
      · by_cases hcd : c = d.checksum
        · exact Or.inl hcd
        · refine Or.inr (ih (d.checksum :: seen) h ?_)
          intro hmem2
          rcases List.mem_cons.1 hmem2 with h2 | h2
          exacts [hcd h2, hs h2]

theorem dedupe_first_seen (ds : List FileDescriptor) (seen : List String)
    (c : String) (hs : c ∉ seen) :
    (dedupeScan ds seen).1.find? (fun d => d.checksum == c) =
      ds.find? (fun d => d.checksum == c) := by
  induction ds generalizing seen with
  | nil => rfl
  | cons d ds ih =>
    by_cases hc : d.checksum ∈ seen
    · rw [dedupeScan_cons_mem d ds seen hc]
      have hne : (d.checksum == c) = false := by
        cases hbc : (d.checksum == c)
        · rfl
        · exfalso
          rw [beq_iff_eq] at hbc
          rw [hbc] at hc
          exact hs hc
      show (dedupeScan ds seen).1.find? (fun x => x.checksum == c) =
        List.find? (fun x => x.checksum == c) (d :: ds)
      simp only [List.find?_cons, hne]
      exact ih seen hs
    · rw [dedupeScan_cons_new d ds seen hc]
      show List.find? (fun x => x.checksum == c)
          (d :: (dedupeScan ds (d.checksum :: seen)).1) =
        List.find? (fun x => x.checksum == c) (d :: ds)
      cases hdc : (d.checksum == c) with
      | true => simp only [List.find?_cons, hdc]
      | false =>
        simp only [List.find?_cons, hdc]
        refine ih (d.checksum :: seen) ?_
        intro hmem
        rcases List.mem_cons.1 hmem with h | h
        · rw [h] at hdc
          simp at hdc
        · exact hs h

theorem dedupe_losers (ds : List FileDescriptor) (seen : List String)
    (j : Nat) (hj : j < ds.length)
    (h : (∃ i, ∃ hi : i < j,
        (ds.get ⟨i, Nat.lt_trans hi hj⟩).checksum =
          (ds.get ⟨j, hj⟩).checksum) ∨
      (ds.get ⟨j, hj⟩).checksum ∈ seen) :
    (ds.get ⟨j, hj⟩).path ∈ (dedupeScan ds seen).2 := by
  induction ds generalizing seen j with
  | nil => exact absurd hj (Nat.not_lt_zero j)
  | cons d ds ih =>
    cases j with
    | zero =>
      rcases h with ⟨i, hi, _⟩ | h
      · exact absurd hi (Nat.not_lt_zero i)
      · rw [dedupeScan_cons_mem d ds seen h]
        exact List.mem_cons_self _ _
    | succ j =>
      have hj2 : j < ds.length := Nat.lt_of_succ_lt_succ hj
      by_cases hc : d.checksum ∈ seen
      · rw [dedupeScan_cons_mem d ds seen hc]
        apply List.mem_cons_of_mem
        apply ih seen j hj2
        rcases h with ⟨i, hi, heq⟩ | hmem
        · cases i with
          | zero => exact Or.inr (heq ▸ hc)
          | succ i =>
            exact Or.inl ⟨i, Nat.lt_of_succ_lt_succ hi, heq⟩
        · exact Or.inr hmem
      · rw [dedupeScan_cons_new d ds seen hc]
        apply ih (d.checksum :: seen) j hj2
        rcases h with ⟨i, hi, heq⟩ | hmem
        · cases i with
          | zero => exact Or.inr (heq ▸ List.mem_cons_self _ _)
          | succ i =>
            exact Or.inl ⟨i, Nat.lt_of_succ_lt_succ hi, heq⟩
        · exact Or.inr (List.mem_cons_of_mem _ hmem)

theorem mem_softDeletes (snap : List GameRecord) (now : Nat)
    (ds : List FileDescriptor) (e : GameRecord)
    (he : e ∈ softDeletes snap now ds) :
    ∃ r ∈ snap, r.deleted_at = none ∧
      (∀ d ∈ ds, d.checksum ≠ r.checksum) ∧
      e = { r with deleted_at := some now, updated_at := now } := by
  unfold softDeletes at he
  rcases List.mem_filterMap.1 he with ⟨r, hr, hf⟩
  split at hf
  · rename_i hcond
    have he2 := Option.some.inj hf
    simp only [Bool.and_eq_true, Option.isNone_iff_eq_none,
      Bool.not_eq_eq_eq_not, Bool.not_true, List.any_eq_false] at hcond
    refine ⟨r, hr, hcond.1, ?_, he2.symm⟩
    intro d hd heq
    have hfalse := hcond.2 d hd
    rw [heq] at hfalse
    simp at hfalse
  · cases hf

theorem softDeletes_deleted (snap : List GameRecord) (now : Nat)
    (ds : List FileDescriptor) (e : GameRecord)
    (he : e ∈ softDeletes snap now ds) : e.deleted_at = some now := by
  rcases mem_softDeletes snap now ds e he with ⟨r, _, _, _, heq⟩
  rw [heq]

theorem recordAt_some_mem (s : List GameRecord) (i : Nat) (r : GameRecord)
    (h : recordAt s i = some r) : r ∈ s ∧ r.id = i := by
  induction s with
  | nil => cases h
  | cons x xs ih =>
    revert h
    show (if x.id = i then some x else recordAt xs i) = some r → _
    by_cases hx : x.id = i
    · rw [if_pos hx]
      intro h
      have := Option.some.inj h
      subst this
      exact ⟨List.mem_cons_self x xs, hx⟩
    · rw [if_neg hx]
      intro h
      exact ⟨List.mem_cons_of_mem x (ih h).1, (ih h).2⟩

theorem recordAt_of_mem_nodup (s : List GameRecord) (r : GameRecord)
    (hnd : (regIds s).Nodup) (hm : r ∈ s) : recordAt s r.id = some r := by
  induction s with
  | nil => cases hm
  | cons x xs ih =>
    rw [regIds_cons, List.nodup_cons] at hnd
    rcases List.mem_cons.1 hm with h | h
    · subst h
      show (if r.id = r.id then some r else recordAt xs r.id) = some r
      rw [if_pos rfl]
    · have hx : ¬x.id = r.id := by
        intro hxe
        apply hnd.1
        rw [hxe]
        exact List.mem_map.2 ⟨r, h, rfl⟩
      show (if x.id = r.id then some x else recordAt xs r.id) = some r
      rw [if_neg hx]
      exact ih hnd.2 h

theorem eq_of_mem_id_nodup (s : List GameRecord) (a b : GameRecord)
    (hnd : (regIds s).Nodup) (ha : a ∈ s) (hb : b ∈ s)
    (hid : a.id = b.id) : a = b := by
  have h1 := recordAt_of_mem_nodup s a hnd ha
  have h2 := recordAt_of_mem_nodup s b hnd hb
  rw [hid] at h1
  rw [h1] at h2
  exact Option.some.inj h2

theorem lastUp_some (p : List GameRecord) (i : Nat) (e : GameRecord)
    (h : lastUp p i = some e) : e ∈ p ∧ e.id = i := by
  induction p with
  | nil => cases h
  | cons m p ih =>
    revert h
    show (match lastUp p i with
      | some r => some r
      | none => if m.id = i then some m else none) = some e → _
    cases hl : lastUp p i with
    | some r =>
      intro h
      have hre := Option.some.inj h
      subst hre
      exact ⟨List.mem_cons_of_mem m (ih hl).1, (ih hl).2⟩
    | none =>
      by_cases hm : m.id = i
      · rw [if_pos hm]
        intro h
        have := Option.some.inj h
        subst this
        exact ⟨List.mem_cons_self m p, hm⟩
      · rw [if_neg hm]
        intro h
        cases h

theorem lastUp_eq_of_unique (p : List GameRecord) (i : Nat) (u : GameRecord)
    (hu : u ∈ p) (hui : u.id = i) (huniq : ∀ e ∈ p, e.id = i → e = u) :
    lastUp p i = some u := by
  induction p with
  | nil => cases hu
  | cons m p ih =>
    show (match lastUp p i with
      | some r => some r
      | none => if m.id = i then some m else none) = some u
    by_cases hp : u ∈ p
    · rw [ih hp (fun e he hei => huniq e (List.mem_cons_of_mem m he) hei)]
    · have hm : u = m := by
        rcases List.mem_cons.1 hu with h | h
        · exact h
        · exact absurd h hp
      cases hl : lastUp p i with
      | some e =>
        exfalso
        rcases lastUp_some p i e hl with ⟨hep, hei⟩
        have heu := huniq e (List.mem_cons_of_mem m hep) hei
        rw [heu] at hep
        exact hp hep
      | none =>
        rw [if_pos (by rw [← hm]; exact hui), hm]

theorem le_foldr_max (l : List Nat) (a : Nat) (h : a ∈ l) :
    a ≤ l.foldr max 0 := by
  induction l with
  | nil => cases h
  | cons x xs ih =>
    rcases List.mem_cons.1 h with h | h
    · rw [h]
      exact Nat.le_max_left x (xs.foldr max 0)
    · exact Nat.le_trans (ih h) (Nat.le_max_right x (xs.foldr max 0))

theorem mem_id_lt_freshIdBase (snap : List GameRecord) (r : GameRecord)
    (h : r ∈ snap) : r.id < freshIdBase snap := by
  have hmem : r.id ∈ regIds snap := List.mem_map.2 ⟨r, h, rfl⟩
  have hle := le_foldr_max (regIds snap) r.id hmem
  unfold freshIdBase
  omega

theorem applyPlan_append (p q s : List GameRecord) :
    applyPlan (p ++ q) s = applyPlan q (applyPlan p s) := by
  induction p generalizing s with
  | nil => rfl
  | cons m p ih => exact ih (upsert m s)

theorem find?_checksum_of_mem_nodup (l : List FileDescriptor)
    (a : FileDescriptor) (c : String)
    (hnd : (l.map (fun d => d.checksum)).Nodup) (ha : a ∈ l)
    (hac : a.checksum = c) :
    l.find? (fun x => x.checksum == c) = some a := by
  induction l with
  | nil => cases ha
  | cons b l ih =>
    rw [List.map_cons, List.nodup_cons] at hnd
    rcases List.mem_cons.1 ha with h | h
    · subst h
      have hbt : (a.checksum == c) = true := by
        rw [hac]
        exact beq_self_eq_true c
      simp only [List.find?_cons, hbt]
    · have hbc : (b.checksum == c) = false := by
        cases hb : (b.checksum == c)
        · rfl
        · exfalso
          rw [beq_iff_eq] at hb
          apply hnd.1
          rw [hb, ← hac]
          exact List.mem_map.2 ⟨a, h, rfl⟩
      simp only [List.find?_cons, hbc]
      exact ih hnd.2 h

theorem scanMutation_rename (snap : List GameRecord) (now : Nat)
    (d : FileDescriptor) (r : GameRecord)
    (hlive : findLive snap d.checksum = some r) (hpath : r.path ≠ d.path) :
    ∀ f, scanMutation snap now f d =
      some { r with path := d.path, updated_at := now } := by
  intro f
  unfold scanMutation
  rw [hlive]
  show (if r.path = d.path then none
    else some { r with path := d.path, updated_at := now }) = _
  rw [if_neg hpath]

/-- C6: when a scanned file keeps its checksum but its path differs from
the live registry record with that checksum, the reconciliation plan
contains the corresponding path update, which keeps the record's id,
created_at and checksum and stays live; every plan entry carrying that
checksum is that single path update (so no creation and no soft-delete
for it), and after applying the plan the registry holds the updated
record under the same id. -/
theorem reconcile_rename_updates_path_only (ds : List FileDescriptor)
    (snap : List GameRecord) (now : Nat) (d : FileDescriptor)
    (r : GameRecord) (hnd : (regIds snap).Nodup)
    (hd : d ∈ (dedupeScan ds []).1)
    (hlive : findLive snap d.checksum = some r)
    (hpath : r.path ≠ d.path) :
    { r with path := d.path, updated_at := now } ∈
        (reconcile ds snap now).plan ∧
    ({ r with path := d.path, updated_at := now } : GameRecord).id = r.id ∧
    ({ r with path := d.path, updated_at := now } : GameRecord).created_at =
      r.created_at ∧
    ({ r with path := d.path, updated_at := now } : GameRecord).checksum =
      r.checksum ∧
    ({ r with path := d.path, updated_at := now } : GameRecord).deleted_at =
      none ∧
    (∀ e ∈ (reconcile ds snap now).plan, e.checksum = r.checksum →
      e = { r with path := d.path, updated_at := now }) ∧
    recordAt (applyPlan (reconcile ds snap now).plan snap) r.id =
      some { r with path := d.path, updated_at := now } := by
  rcases findLive_some snap d.checksum r hlive with ⟨hr, hrl, hrc⟩
  have hdds : d ∈ ds := dedupe_kept_mem ds [] d hd
  have hknd := (dedupe_nodup_disjoint ds []).1
  have hsm : ∀ f, scanMutation snap now f d =
      some { r with path := d.path, updated_at := now } :=
    scanMutation_rename snap now d r hlive hpath
  have humem : { r with path := d.path, updated_at := now } ∈
      scanMutations snap now (freshIdBase snap) (dedupeScan ds []).1 := by
    rcases exists_mem_scanMutations snap now (freshIdBase snap)
        (dedupeScan ds []).1 d
        (fun e => e = { r with path := d.path, updated_at := now }) hd
        (fun f => ⟨_, hsm f, rfl⟩) with ⟨e, he, heq⟩
    rw [← heq]
    exact he
  have hplanmem : { r with path := d.path, updated_at := now } ∈
      (reconcile ds snap now).plan :=
    List.mem_append.2 (Or.inr humem)
  have huniq_chk : ∀ e ∈ (reconcile ds snap now).plan,
      e.checksum = r.checksum →
      e = { r with path := d.path, updated_at := now } := by
    intro e he hec
    rcases List.mem_append.1 he with hsd | hsme
    · exfalso
      rcases mem_softDeletes snap now ds e hsd with ⟨rr, _, _, hnotin, herr⟩
      have : e.checksum = rr.checksum := by rw [herr]
      exact hnotin d hdds (by rw [← hrc, ← this, hec])
    · exact scanMutations_unique snap now (freshIdBase snap)
        (dedupeScan ds []).1 hknd e _ hsme humem (by rw [hec])
  have huniq_id : ∀ e ∈ (reconcile ds snap now).plan, e.id = r.id →
      e = { r with path := d.path, updated_at := now } := by
    intro e he hei
    rcases List.mem_append.1 he with hsd | hsme
    · exfalso
      rcases mem_softDeletes snap now ds e hsd with
        ⟨rr, hrrmem, _, hnotin, herr⟩
      have hide : e.id = rr.id := by rw [herr]
      have hrr_eq : rr = r :=
        eq_of_mem_id_nodup snap rr r hnd hrrmem hr (by rw [← hide, hei])
      exact hnotin d hdds (by rw [hrr_eq, ← hrc])
    · rcases mem_scanMutations snap now (freshIdBase snap)
        (dedupeScan ds []).1 e hsme with ⟨d₁, hd₁, f, hfge, hsm₁⟩
      revert hsm₁
      unfold scanMutation
      split
      · rename_i r₂ hl₂
        split
        · intro hsm₁
          cases hsm₁
        · rename_i hp₂
          intro hsm₁
          have he₂ := Option.some.inj hsm₁
          rcases findLive_some snap d₁.checksum r₂ hl₂ with ⟨hr₂, hr₂l, hr₂c⟩
          have hid₂ : e.id = r₂.id := by rw [← he₂]
          have hr₂_eq : r₂ = r :=
            eq_of_mem_id_nodup snap r₂ r hnd hr₂ hr (by rw [← hid₂, hei])
          have hd₁_eq : d₁ = d := by
            apply List.inj_on_of_nodup_map hknd hd₁ hd
            show d₁.checksum = d.checksum
            rw [← hr₂c, hr₂_eq, hrc]
          rw [← he₂, hr₂_eq, hd₁_eq]
      · rename_i hl₂
        split
        · rename_i r₂ hdel₂
          intro hsm₁
          exfalso
          have he₂ := Option.some.inj hsm₁
          rcases findDeleted_some snap d₁.checksum r₂ hdel₂ with
            ⟨hr₂, hr₂del, _⟩
          have hid₂ : e.id = r₂.id := by rw [← he₂]
          have hr₂_eq : r₂ = r :=
            eq_of_mem_id_nodup snap r₂ r hnd hr₂ hr (by rw [← hid₂, hei])
          rw [hr₂_eq, hrl] at hr₂del
          cases hr₂del
        · intro hsm₁
          exfalso
          have he₂ := Option.some.inj hsm₁
          have hid₂ : e.id = f := by rw [← he₂]
          have hlt := mem_id_lt_freshIdBase snap r hr
          omega
  have hlast : lastUp (reconcile ds snap now).plan r.id =
      some { r with path := d.path, updated_at := now } :=
    lastUp_eq_of_unique (reconcile ds snap now).plan r.id _ hplanmem rfl
      huniq_id
  refine ⟨hplanmem, rfl, rfl, rfl, hrl, huniq_chk, ?_⟩
  rw [recordAt_applyPlan, hlast]

/-- Witness for C6: renaming old.bin to new.bin with unchanged checksum
c1 yields exactly the path update of record 1. -/
theorem reconcile_rename_updates_path_only_witness :
    (⟨1, "new.bin", "c1", 3, 0, 5, none⟩ : GameRecord) ∈
        (reconcile [⟨"new.bin", 3, "c1", 7⟩]
          [⟨1, "old.bin", "c1", 3, 0, 0, none⟩] 5).plan ∧
    (⟨1, "new.bin", "c1", 3, 0, 5, none⟩ : GameRecord).id = 1 ∧
    (⟨1, "new.bin", "c1", 3, 0, 5, none⟩ : GameRecord).created_at = 0 ∧
    (⟨1, "new.bin", "c1", 3, 0, 5, none⟩ : GameRecord).checksum = "c1" ∧
    (⟨1, "new.bin", "c1", 3, 0, 5, none⟩ : GameRecord).deleted_at = none ∧
    (∀ e ∈ (reconcile [⟨"new.bin", 3, "c1", 7⟩]
        [⟨1, "old.bin", "c1", 3, 0, 0, none⟩] 5).plan, e.checksum = "c1" →
      e = ⟨1, "new.bin", "c1", 3, 0, 5, none⟩) ∧
    recordAt (applyPlan (reconcile [⟨"new.bin", 3, "c1", 7⟩]
        [⟨1, "old.bin", "c1", 3, 0, 0, none⟩] 5).plan
      [⟨1, "old.bin", "c1", 3, 0, 0, none⟩]) 1 =
      some ⟨1, "new.bin", "c1", 3, 0, 5, none⟩ :=
  reconcile_rename_updates_path_only [⟨"new.bin", 3, "c1", 7⟩]
    [⟨1, "old.bin", "c1", 3, 0, 0, none⟩] 5 ⟨"new.bin", 3, "c1", 7⟩
    ⟨1, "old.bin", "c1", 3, 0, 0, none⟩ (by decide) (by decide) (by decide)
    (by decide)

theorem sm_filter_length (snap : List GameRecord) (now : Nat)
    (ks : List FileDescriptor) (c : String) (fresh : Nat)
    (hnd : (ks.map (fun d => d.checksum)).Nodup)
    (hc : c ∈ ks.map (fun d => d.checksum))
    (hprod : ∀ f, ∀ d ∈ ks, d.checksum = c →
      ∃ e, scanMutation snap now f d = some e) :
    ((scanMutations snap now fresh ks).filter
      (fun e => e.checksum == c)).length = 1 := by
  induction ks generalizing fresh with
  | nil => cases hc
  | cons d ks ih =>
    rw [List.map_cons, List.nodup_cons] at hnd
    rw [List.map_cons, List.mem_cons] at hc
    by_cases hdc : d.checksum = c
    · have hnotin : c ∉ ks.map (fun d => d.checksum) := by
        rw [← hdc]
        exact hnd.1
      rcases hprod fresh d (List.mem_cons_self d ks) hdc with ⟨e, he⟩
      have hechk := (scanMutation_fields snap now fresh d e he).1
      show ((match scanMutation snap now fresh d with
        | some e₁ => e₁ :: scanMutations snap now (fresh + 1) ks
        | none => scanMutations snap now (fresh + 1) ks).filter
          (fun x : GameRecord => x.checksum == c)).length = 1
      rw [he]
      show ((e :: scanMutations snap now (fresh + 1) ks).filter
        (fun x : GameRecord => x.checksum == c)).length = 1
      have hcond : (e.checksum == c) = true := by
        rw [hechk, hdc]
        exact beq_self_eq_true c
      have hrest : (scanMutations snap now (fresh + 1) ks).filter
          (fun x => x.checksum == c) = [] := by
        rw [List.filter_eq_nil_iff]
        intro e₁ he₁ hbeq
        have hin := scanMutations_checksum_mem snap now (fresh + 1) ks e₁ he₁
        rw [beq_iff_eq] at hbeq
        rw [hbeq] at hin
        exact hnotin hin
      simp [List.filter_cons, hcond, hrest]
    · have hcks : c ∈ ks.map (fun d => d.checksum) := by
        rcases hc with h | h
        · exact absurd h.symm hdc
        · exact h
      have hrec := ih (fresh + 1) hnd.2 hcks
        (fun f d₁ hd₁ hc₁ => hprod f d₁ (List.mem_cons_of_mem d hd₁) hc₁)
      show ((match scanMutation snap now fresh d with
        | some e₁ => e₁ :: scanMutations snap now (fresh + 1) ks
        | none => scanMutations snap now (fresh + 1) ks).filter
          (fun x : GameRecord => x.checksum == c)).length = 1
      cases hm : scanMutation snap now fresh d with
      | some e =>
        have hechk := (scanMutation_fields snap now fresh d e hm).1
        have hne : (e.checksum == c) = false := by
          cases hb : (e.checksum == c)
          · rfl
          · exfalso
            rw [beq_iff_eq] at hb
            rw [hechk] at hb
            exact hdc hb
        show ((e :: scanMutations snap now (fresh + 1) ks).filter
          (fun x => x.checksum == c)).length = 1
        simp only [List.filter_cons, hne]
        exact hrec
      | none => exact hrec

/-- C7: when the scan holds two descriptors with the same checksum, the
later one's path is reported among the DuplicateContentError conflicts,
and, when the checksum is new to the registry, the plan holds exactly one
record with that checksum: a created one (created_at stamped now, live)
carrying the path of the first-seen descriptor. -/
theorem reconcile_duplicate_reported (ds : List FileDescriptor)
    (snap : List GameRecord) (now : Nat) (j : Nat) (hj : j < ds.length)
    (hlose : ∃ i, ∃ hi : i < j,
      (ds.get ⟨i, Nat.lt_trans hi hj⟩).checksum =
        (ds.get ⟨j, hj⟩).checksum)
    (hnew : ∀ r ∈ snap, r.checksum ≠ (ds.get ⟨j, hj⟩).checksum) :
    (ds.get ⟨j, hj⟩).path ∈ (reconcile ds snap now).duplicates ∧
    ((reconcile ds snap now).plan.filter
      (fun e => e.checksum == (ds.get ⟨j, hj⟩).checksum)).length = 1 ∧
    ∀ e ∈ (reconcile ds snap now).plan,
      e.checksum = (ds.get ⟨j, hj⟩).checksum →
      e.created_at = now ∧ e.deleted_at = none ∧
      ∃ dfirst,
        ds.find? (fun x => x.checksum == (ds.get ⟨j, hj⟩).checksum) =
          some dfirst ∧ e.path = dfirst.path := by
  have hknd := (dedupe_nodup_disjoint ds []).1
  have hlive0 : findLive snap (ds.get ⟨j, hj⟩).checksum = none := by
    cases h : findLive snap (ds.get ⟨j, hj⟩).checksum with
    | none => rfl
    | some r =>
      rcases findLive_some snap _ r h with ⟨hmem, _, hchk⟩
      exact absurd hchk (hnew r hmem)
  have hdel0 : findDeleted snap (ds.get ⟨j, hj⟩).checksum = none := by
    cases h : findDeleted snap (ds.get ⟨j, hj⟩).checksum with
    | none => rfl
    | some r =>
      rcases findDeleted_some snap _ r h with ⟨hmem, _, hchk⟩
      exact absurd hchk (hnew r hmem)
  have hprod : ∀ f, ∀ d₁ ∈ (dedupeScan ds []).1,
      d₁.checksum = (ds.get ⟨j, hj⟩).checksum →
      ∃ e, scanMutation snap now f d₁ = some e := by
    intro f d₁ _ hd₁c
    refine ⟨⟨f, d₁.path, (ds.get ⟨j, hj⟩).checksum, d₁.size, now, now,
      none⟩, ?_⟩
    unfold scanMutation
    rw [hd₁c, hlive0, hdel0]
  have hcmem : (ds.get ⟨j, hj⟩).checksum ∈
      (dedupeScan ds []).1.map (fun d => d.checksum) := by
    apply dedupe_mem_checksum ds [] _ ?_ (List.not_mem_nil _)
    exact List.mem_map.2 ⟨ds.get ⟨j, hj⟩, List.get_mem ds j hj, rfl⟩
  refine ⟨?_, ?_, ?_⟩
  · exact dedupe_losers ds [] j hj (Or.inl hlose)
  · show ((softDeletes snap now ds ++
      scanMutations snap now (freshIdBase snap)
        (dedupeScan ds []).1).filter
      (fun e => e.checksum == (ds.get ⟨j, hj⟩).checksum)).length = 1
    rw [List.filter_append]
    have hsd : (softDeletes snap now ds).filter
        (fun e => e.checksum == (ds.get ⟨j, hj⟩).checksum) = [] := by
      rw [List.filter_eq_nil_iff]
      intro e hesd hbeq
      rcases mem_softDeletes snap now ds e hesd with ⟨rr, hrr, _, _, herr⟩
      rw [beq_iff_eq] at hbeq
      have hrrc : rr.checksum = (ds.get ⟨j, hj⟩).checksum := by
        rw [← hbeq, herr]
      exact hnew rr hrr hrrc
    rw [hsd, List.nil_append]
    exact sm_filter_length snap now (dedupeScan ds []).1 _
      (freshIdBase snap) hknd hcmem hprod
  · intro e he hec
    rcases List.mem_append.1 he with hesd | hesm
    · exfalso
      rcases mem_softDeletes snap now ds e hesd with ⟨rr, hrr, _, _, herr⟩
      have hrrc : rr.checksum = (ds.get ⟨j, hj⟩).checksum := by
        rw [← hec, herr]
      exact hnew rr hrr hrrc
    · rcases mem_scanMutations snap now (freshIdBase snap)
        (dedupeScan ds []).1 e hesm with ⟨d₁, hd₁, f, _, hsm₁⟩
      have hfields := scanMutation_fields snap now f d₁ e hsm₁
      have hd₁c : d₁.checksum = (ds.get ⟨j, hj⟩).checksum := by
        rw [← hfields.1, hec]
      unfold scanMutation at hsm₁
      rw [hd₁c, hlive0, hdel0] at hsm₁
      have he₂ := Option.some.inj hsm₁
      refine ⟨by rw [← he₂], by rw [← he₂], d₁, ?_, by rw [← he₂]⟩
      rw [← dedupe_first_seen ds [] _ (List.not_mem_nil _)]
      exact find?_checksum_of_mem_nodup (dedupeScan ds []).1 d₁ _ hknd
        hd₁ hd₁c

/-- Witness for C7 on a scan holding two files with checksum c1 against
an empty registry. -/
theorem reconcile_duplicate_reported_witness :
    "b.bin" ∈ (reconcile [⟨"a.bin", 3, "c1", 0⟩, ⟨"b.bin", 4, "c1", 0⟩]
        [] 7).duplicates ∧
    ((reconcile [⟨"a.bin", 3, "c1", 0⟩, ⟨"b.bin", 4, "c1", 0⟩]
        [] 7).plan.filter (fun e => e.checksum == "c1")).length = 1 ∧
    ∀ e ∈ (reconcile [⟨"a.bin", 3, "c1", 0⟩, ⟨"b.bin", 4, "c1", 0⟩]
        [] 7).plan, e.checksum = "c1" →
      e.created_at = 7 ∧ e.deleted_at = none ∧
      ∃ dfirst,
        List.find? (fun x => x.checksum == "c1")
            ([⟨"a.bin", 3, "c1", 0⟩, ⟨"b.bin", 4, "c1", 0⟩] :
              List FileDescriptor) =
          some dfirst ∧ e.path = dfirst.path :=
  reconcile_duplicate_reported
    [⟨"a.bin", 3, "c1", 0⟩, ⟨"b.bin", 4, "c1", 0⟩] [] 7 1 (by decide)
    ⟨0, by decide, by decide⟩ (fun r hr => absurd hr (List.not_mem_nil r))

/-- Mutual exclusion of two records under the live-checksum-uniqueness
invariant: two live records may never share a checksum. -/
def LiveExcl (a b : GameRecord) : Prop :=
  a.deleted_at = none → b.deleted_at = none → a.checksum ≠ b.checksum

/-- Modelled from the spec: the registry invariant of section 3, the
checksum is unique among records whose deleted_at is null. -/
def LiveUnique (s : List GameRecord) : Prop := s.Pairwise LiveExcl

theorem liveExcl_symmetric : Symmetric LiveExcl :=
  fun _ _ hab hb ha heq => hab ha hb heq.symm

theorem liveUnique_recordAt (s : List GameRecord)
    (hnd : (regIds s).Nodup) (hlu : LiveUnique s) :
    ∀ i j r₁ r₂, recordAt s i = some r₁ → recordAt s j = some r₂ →
      r₁.deleted_at = none → r₂.deleted_at = none →
      r₁.checksum = r₂.checksum → i = j := by
  intro i j r₁ r₂ h1 h2 hl1 hl2 hchk
  rcases recordAt_some_mem s i r₁ h1 with ⟨hm1, hid1⟩
  rcases recordAt_some_mem s j r₂ h2 with ⟨hm2, hid2⟩
  by_cases heq : r₁ = r₂
  · rw [← hid1, ← hid2, heq]
  · exact absurd hchk
      (List.Pairwise.forall liveExcl_symmetric hlu hm1 hm2 heq hl1 hl2)

theorem liveUnique_of_recordAt (s : List GameRecord)
    (hnd : (regIds s).Nodup)
    (h : ∀ i j r₁ r₂, recordAt s i = some r₁ → recordAt s j = some r₂ →
      r₁.deleted_at = none → r₂.deleted_at = none →
      r₁.checksum = r₂.checksum → i = j) : LiveUnique s := by
  have hpw : s.Pairwise (fun a b => a.id ≠ b.id) := by
    have hnd2 : (s.map (fun r => r.id)).Pairwise (fun a b => a ≠ b) := hnd
    exact List.pairwise_map.1 hnd2
  rw [LiveUnique, List.pairwise_iff_get]
  intro gi gj hij hl1 hl2 heq
  have ha := recordAt_of_mem_nodup s (s.get gi) hnd
    (List.get_mem s gi.1 gi.2)
  have hb := recordAt_of_mem_nodup s (s.get gj) hnd
    (List.get_mem s gj.1 gj.2)
  have hid := h (s.get gi).id (s.get gj).id (s.get gi) (s.get gj)
    ha hb hl1 hl2 heq
  exact (List.pairwise_iff_get.1 hpw) gi gj hij hid

theorem scanMutations_id_of_live_checksum (ds : List FileDescriptor)
    (snap : List GameRecord) (now : Nat) (hnd : (regIds snap).Nodup)
    (hlu : LiveUnique snap) (e : GameRecord) (k : Nat) (r₂ : GameRecord)
    (hesm : e ∈ scanMutations snap now (freshIdBase snap)
      (dedupeScan ds []).1)
    (hrk : recordAt snap k = some r₂) (hr₂l : r₂.deleted_at = none)
    (hechk : e.checksum = r₂.checksum) : e.id = k := by
  rcases mem_scanMutations snap now (freshIdBase snap) (dedupeScan ds []).1
    e hesm with ⟨d₁, hd₁, f, hfge, hsm₁⟩
  have hfields := scanMutation_fields snap now f d₁ e hsm₁
  rcases recordAt_some_mem snap k r₂ hrk with ⟨hr₂mem, hr₂id⟩
  have hr₂c : r₂.checksum = d₁.checksum := by rw [← hechk, hfields.1]
  rcases findLive_isSome snap d₁.checksum r₂ hr₂mem hr₂l hr₂c with
    ⟨r₃, hr₃⟩
  unfold scanMutation at hsm₁
  rw [hr₃] at hsm₁
  revert hsm₁
  show (if r₃.path = d₁.path then none
    else some { r₃ with path := d₁.path, updated_at := now }) = some e → _
  by_cases hp : r₃.path = d₁.path
  · rw [if_pos hp]
    intro h
    cases h
  · rw [if_neg hp]
    intro h
    have he := Option.some.inj h
    rcases findLive_some snap d₁.checksum r₃ hr₃ with ⟨hr₃mem, hr₃l, hr₃c⟩
    have hid : e.id = r₃.id := by rw [← he]
    have hra3 : recordAt snap r₃.id = some r₃ :=
      recordAt_of_mem_nodup snap r₃ hnd hr₃mem
    have hik := liveUnique_recordAt snap hnd hlu r₃.id k r₃ r₂ hra3 hrk
      hr₃l hr₂l (by rw [hr₃c, hr₂c])
    rw [hid, hik]

theorem reconcile_recordAt_inv (ds : List FileDescriptor)
    (snap : List GameRecord) (now : Nat) (hnd : (regIds snap).Nodup)
    (hlu : LiveUnique snap) :
    ∀ i j r₁ r₂,
      recordAt (applyPlan (reconcile ds snap now).plan snap) i = some r₁ →
      recordAt (applyPlan (reconcile ds snap now).plan snap) j = some r₂ →
      r₁.deleted_at = none → r₂.deleted_at = none →
      r₁.checksum = r₂.checksum → i = j := by
  have hknd := (dedupe_nodup_disjoint ds []).1
  intro i j r₁ r₂ h1 h2 hl1 hl2 hchk
  rw [recordAt_applyPlan] at h1 h2
  cases hc1 : lastUp (reconcile ds snap now).plan i with
  | none =>
    rw [hc1] at h1
    have h1s : recordAt snap i = some r₁ := h1
    cases hc2 : lastUp (reconcile ds snap now).plan j with
    | none =>
      rw [hc2] at h2
      have h2s : recordAt snap j = some r₂ := h2
      exact liveUnique_recordAt snap hnd hlu i j r₁ r₂ h1s h2s hl1 hl2 hchk
    | some e₂ =>
      rw [hc2] at h2
      have he₂ : e₂ = r₂ := Option.some.inj h2
      rcases lastUp_some _ j e₂ hc2 with ⟨he₂mem, he₂id⟩
      rcases List.mem_append.1 he₂mem with hsd | hsm
      · exfalso
        have hdead := softDeletes_deleted snap now ds e₂ hsd
        rw [he₂, hl2] at hdead
        cases hdead
      · have := scanMutations_id_of_live_checksum ds snap now hnd hlu e₂
          i r₁ hsm h1s hl1 (by rw [he₂, ← hchk])
        rw [← he₂id, this]
  | some e₁ =>
    rw [hc1] at h1
    have he₁ : e₁ = r₁ := Option.some.inj h1
    rcases lastUp_some _ i e₁ hc1 with ⟨he₁mem, he₁id⟩
    rcases List.mem_append.1 he₁mem with hsd | hsm₁
    · exfalso
      have hdead := softDeletes_deleted snap now ds e₁ hsd
      rw [he₁, hl1] at hdead
      cases hdead
    · cases hc2 : lastUp (reconcile ds snap now).plan j with
      | none =>
        rw [hc2] at h2
        have h2s : recordAt snap j = some r₂ := h2
        have := scanMutations_id_of_live_checksum ds snap now hnd hlu e₁
          j r₂ hsm₁ h2s hl2 (by rw [he₁, hchk])
        rw [← he₁id, this]
      | some e₂ =>
        rw [hc2] at h2
        have he₂ : e₂ = r₂ := Option.some.inj h2
        rcases lastUp_some _ j e₂ hc2 with ⟨he₂mem, he₂id⟩
        rcases List.mem_append.1 he₂mem with hsd | hsm₂
        · exfalso
          have hdead := softDeletes_deleted snap now ds e₂ hsd
          rw [he₂, hl2] at hdead
          cases hdead
        · have heq : e₁ = e₂ := scanMutations_unique snap now
            (freshIdBase snap) (dedupeScan ds []).1 hknd e₁ e₂ hsm₁ hsm₂
            (by rw [he₁, he₂, hchk])
          rw [← he₁id, ← he₂id, heq]

/-- C4: live-checksum uniqueness is an invariant of reconciliation: if
no two live records of the registry share a checksum, then after
applying a full reconcile plan (creations, revivals, path updates and
soft-deletes) no two live records share a checksum either; only live
records are constrained, so a soft-deleted record's checksum may be
reused by a created or revived record. -/
theorem reconcile_preserves_live_unique (ds : List FileDescriptor)
    (snap : List GameRecord) (now : Nat) (hnd : (regIds snap).Nodup)
    (hlu : LiveUnique snap) :
    LiveUnique (applyPlan (reconcile ds snap now).plan snap) := by
  apply liveUnique_of_recordAt _
    (nodup_regIds_applyPlan (reconcile ds snap now).plan snap hnd)
  exact reconcile_recordAt_inv ds snap now hnd hlu

/-- Witness for C4: reconciling a two-file scan, one checksum colliding
with a soft-deleted record, into a registry holding one live and one
soft-deleted record. -/
theorem reconcile_preserves_live_unique_witness :
    LiveUnique (applyPlan
      (reconcile [⟨"a.bin", 1, "c1", 0⟩, ⟨"b.bin", 2, "c2", 0⟩]
        [⟨1, "x.bin", "c1", 1, 0, 0, none⟩,
          ⟨2, "y.bin", "c2", 2, 0, 0, some 4⟩] 9).plan
      [⟨1, "x.bin", "c1", 1, 0, 0, none⟩,
        ⟨2, "y.bin", "c2", 2, 0, 0, some 4⟩]) :=
  reconcile_preserves_live_unique
    [⟨"a.bin", 1, "c1", 0⟩, ⟨"b.bin", 2, "c2", 0⟩]
    [⟨1, "x.bin", "c1", 1, 0, 0, none⟩,
      ⟨2, "y.bin", "c2", 2, 0, 0, some 4⟩] 9 (by decide)
    (List.Pairwise.cons
      (fun b hb => by
        intro h1 h2
        simp at hb
        rw [hb]
        decide)
      (List.Pairwise.cons (fun b hb => by cases hb) List.Pairwise.nil))

/-- Modelled from the spec: the failures of the download path per
sections 4.6 and 7. -/
inductive DownloadFailure where
  | notFound
  | ioError
  | rangeNotSatisfiable
deriving DecidableEq, Repr

/-- Modelled from the spec: the response descriptor of the Download
Orchestrator (section 4.6): status, optional Content-Range triple
(start, end, file size), resolved interval and the speed limit handed to
the throttled stream. -/
structure ResponseDescriptor where
  status : Nat
  contentRange : Option (Nat × Nat × Nat)
  interval : ByteInterval
  speedLimit : Option Nat
deriving DecidableEq, Repr

/-- Modelled from the spec: the Download Orchestrator of section 4.6.
FilesService.download is not part of the fragment; the filesystem re-stat
is the stat argument, mapping a path to the current size of the file, or
none when the file vanished. -/
def download (reg : List GameRecord) (stat : String → Option Nat)
    (gameId : Nat) (speedLimit : Option Nat) (rangeHeader : Option String) :
    Except DownloadFailure ResponseDescriptor :=
  match recordAt reg gameId with
  | none => Except.error DownloadFailure.notFound
  | some r =>
    if r.deleted_at.isSome then Except.error DownloadFailure.notFound
    else
      match stat r.path with
      | none => Except.error DownloadFailure.ioError
      | some fileSize =>
        match resolve rangeHeader fileSize with
        | Except.error _ => Except.error DownloadFailure.rangeNotSatisfiable
        | Except.ok itv =>
          if itv.start = 0 ∧ itv.last = fileSize - 1 then
            Except.ok { status := 200, contentRange := none,
                        interval := itv, speedLimit := speedLimit }
          else
            Except.ok { status := 206,
                        contentRange := some (itv.start, itv.last, fileSize),
                        interval := itv, speedLimit := speedLimit }

/-- C5: the download operation fails with NotFoundError exactly when no
record with the requested id exists or the record is soft-deleted; for a
live record it proceeds to range resolution and streaming, so any other
outcome is not NotFoundError. -/
theorem download_notFound_iff (reg : List GameRecord)
    (stat : String → Option Nat) (gameId : Nat) (speedLimit : Option Nat)
    (rangeHeader : Option String) :
    download reg stat gameId speedLimit rangeHeader =
        Except.error DownloadFailure.notFound ↔
      (recordAt reg gameId = none ∨
        ∃ r, recordAt reg gameId = some r ∧ r.deleted_at.isSome) := by
  cases hr : recordAt reg gameId with
  | none => simp [download, hr]
  | some r =>
    by_cases hd : r.deleted_at.isSome
    · simp [download, hr, hd]
    · simp only [download, hr, Bool.not_eq_true] at hd ⊢
      rw [if_neg (by simp [hd])]
      cases hs : stat r.path with
      | none => simp [hs, hd]
      | some fileSize =>
        cases hres : resolve rangeHeader fileSize with
        | error e => simp [hs, hres, hd]
        | ok itv =>
          by_cases hfull : itv.start = 0 ∧ itv.last = fileSize - 1 <;>
            simp [hs, hres, hfull, hd]

/-- Modelled from the JS Number builtin as applied by the controller:
undefined becomes NaN, the empty string 0, an optionally negated decimal
digit string its value, and anything else NaN. -/
inductive JsNum where
  | nan
  | num (n : Int)
deriving DecidableEq, Repr

/-- Conversion the controller applies to an optional header string via
the JS Number builtin. -/
def jsNumber : Option String → JsNum
  | none => JsNum.nan
  | some s =>
    match s.toList with
    | [] => JsNum.num 0
    | cs =>
      match natOfDigits cs with
      | some n => JsNum.num n
      | none =>
        match cs with
        | '-' :: rest =>
          match natOfDigits rest with
          | some n => JsNum.num (-(n : Int))
          | none => JsNum.nan
        | _ => JsNum.nan

/-- Arguments of the FilesService.download call issued by the controller. -/
structure DownloadCallArgs where
  gameId : JsNum
  speedLimit : JsNum
  rangeHeader : Option String
deriving DecidableEq, Repr

/-- Embedded from GamesController.getGameDownload: the controller calls
filesService.download with Number(params.id), Number(speedlimit) and the
raw Range header, speedlimit being the optional X-Download-Speed-Limit
header. -/
def getGameDownloadArgs (paramsId : String) (speedlimit : Option String)
    (range : Option String) : DownloadCallArgs :=
  { gameId := jsNumber (some paramsId),
    speedLimit := jsNumber speedlimit,
    rangeHeader := range }

/-- C9: with the X-Download-Speed-Limit header absent the controller
passes NaN, the value of Number(undefined), as the speed-limit argument,
and in every request the forwarded speed limit equals Number applied to
the header. -/
theorem controller_speed_limit_is_jsNumber (paramsId : String)
    (range : Option String) :
    (getGameDownloadArgs paramsId none range).speedLimit = JsNum.nan ∧
    ∀ hdr : Option String,
      (getGameDownloadArgs paramsId hdr range).speedLimit = jsNumber hdr :=
  ⟨rfl, fun _ => rfl⟩

/-- Modelled from the spec: GamesService.findOneByGameIdOrFail is not
part of the fragment; the controller calls it with
loadDeletedEntities: true, so the by-id lookup also returns soft-deleted
records and fails only when the id is unknown. -/
def findOneByGameIdOrFail (reg : List GameRecord) (gameId : Nat) :
    Except DownloadFailure GameRecord :=
  match recordAt reg gameId with
  | some r => Except.ok r
  | none => Except.error DownloadFailure.notFound

/-- Embedded from GamesController.getGameByGameId: the single-game
details endpoint delegates to findOneByGameIdOrFail with
loadDeletedEntities: true. -/
def getGameByGameId (reg : List GameRecord) (gameId : Nat) :
    Except DownloadFailure GameRecord :=
  findOneByGameIdOrFail reg gameId

/-- Modelled from the spec: the nestjs-paginate call of
GamesController.findGames is not part of the fragment; the controller
passes withDeleted: false, so the paginated list contains exactly the
records that are not soft-deleted. -/
def findGames (reg : List GameRecord) : List GameRecord :=
  reg.filter (fun r => r.deleted_at.isNone)

/-- C10: a soft-deleted record is returned by the single-game details
endpoint, whose lookup runs with loadDeletedEntities: true, while the
paginated list endpoint, running with withDeleted: false, never includes
it, so the two read endpoints disagree on its visibility. -/
theorem soft_deleted_endpoint_disagreement (reg : List GameRecord)
    (gameId t : Nat) (r : GameRecord) (hr : recordAt reg gameId = some r)
    (hd : r.deleted_at = some t) :
    getGameByGameId reg gameId = Except.ok r ∧ r ∉ findGames reg := by
  constructor
  · simp [getGameByGameId, findOneByGameIdOrFail, hr]
  · intro hmem
    have hp := (List.mem_filter.1 hmem).2
    rw [hd] at hp
    simp at hp

/-- Witness for C10 on a one-record registry holding a soft-deleted game. -/
theorem soft_deleted_endpoint_disagreement_witness :
    getGameByGameId [⟨1, "p.bin", "c1", 2, 0, 0, some 9⟩] 1 =
        Except.ok ⟨1, "p.bin", "c1", 2, 0, 0, some 9⟩ ∧
      (⟨1, "p.bin", "c1", 2, 0, 0, some 9⟩ : GameRecord) ∉
        findGames [⟨1, "p.bin", "c1", 2, 0, 0, some 9⟩] :=
  soft_deleted_endpoint_disagreement [⟨1, "p.bin", "c1", 2, 0, 0, some 9⟩]
    1 9 ⟨1, "p.bin", "c1", 2, 0, 0, some 9⟩ (by decide) (by decide)

end GameVault
